import Mathlib

/-!
Verification development for the taxonomy-index logic of the Voice AI
documentation repository: the `Category` data model, the parent-chain walks
(`buildHref`, `getAllTopicSlugs`), slug-path resolution
(`findTopicBySlugPath` / `getTopicMetadata`), the navigation tree
(`getNavigationTree`), prev/next pagination (`getPrevNextTopics`), the
client-side substring search (`search` from the search bar and search page,
`searchTopics` from the library), and table-of-contents extraction
(`extractTableOfContents`).

Conventions of the shallow embedding:
* JavaScript `Map` built with `set` in array order is modelled so that a
  later entry with the same key wins (`mapGet`).
* JavaScript truthiness tests on `string | null` fields (`if (parentId)`)
  are modelled explicitly: both `null` and the empty string are falsy.
* Unbounded `while`/recursion over parent pointers is modelled with an
  explicit fuel parameter; the top-level wrappers use fuel
  `cats.length + 1`, which is enough for every terminating chain, and the
  termination/stability theorems make the fuel-independence precise.
-/

namespace VoiceAI

/-- The `Category` record of `taxonomy.json`, as declared in
`src/lib/mdx.ts` (`TaxonomyCategory`) and `SearchBar.tsx` (`Category`). -/
structure Category where
  id : String
  title : String
  slug : String
  description : String
  parentId : Option String
  order : Int
  tags : List String
  icon : Option String
deriving DecidableEq, Repr

/-- JavaScript truthiness of a `string | null` value: `null` and `""` are
falsy. -/
def truthy : Option String → Bool
  | none => false
  | some s => !s.isEmpty

/-- `categoryMap.get i` for the map built by `categories.forEach((cat) =>
map.set(cat.id, cat))`: the last category with a given id wins. -/
def mapGet : List Category → String → Option Category
  | [], _ => none
  | c :: cs, i =>
    match mapGet cs i with
    | some d => some d
    | none => if c.id = i then some c else none

/-- One step of the parent-chain walk of `buildHref` /
`getAllTopicSlugs`: follow `parentId` when it is truthy and resolves in the
category map, otherwise stop. -/
def parentOf (cats : List Category) (c : Category) : Option Category :=
  match c.parentId with
  | none => none
  | some p => if p = "" then none else mapGet cats p

/-- The slug segments collected root-first by the `while (current)` loop of
`buildHref` (`SearchBar.tsx`) and of `getAllTopicSlugs` (`mdx.ts`),
with explicit fuel standing in for the unbounded loop. -/
def chainSlugs (cats : List Category) : Nat → Category → List String
  | 0, c => [c.slug]
  | fuel + 1, c =>
    match parentOf cats c with
    | some p => chainSlugs cats fuel p ++ [c.slug]
    | none => [c.slug]

/-- `Array.prototype.join(sep)`. -/
def joinSep (sep : String) : List String → String
  | [] => ""
  | [x] => x
  | x :: y :: xs => x ++ sep ++ joinSep sep (y :: xs)

/-- `buildHref` from `SearchBar.tsx`: walk the parent chain bottom-up and
return `"/topics/" + segments.join("/")`. -/
def buildHref (cats : List Category) (c : Category) : String :=
  "/topics/" ++ joinSep "/" (chainSlugs cats (cats.length + 1) c)

/-- `childrenMap.get pid`: the categories whose `parentId` equals `pid`, in
input order (the map is populated by pushing in array order). -/
def childrenMap (cats : List Category) (pid : Option String) : List Category :=
  cats.filter fun c => decide (c.parentId = pid)

/-- `getAllTopicSlugs` from `mdx.ts`: for every category (in array order),
the root-to-node slug path obtained from the parent-chain walk. -/
def getAllTopicSlugs (cats : List Category) : List (List String) :=
  cats.map fun c => chainSlugs cats (cats.length + 1) c

/-- Iterate the parent-chain step on an optional current node. -/
def iterParent (cats : List Category) : Nat → Option Category → Option Category
  | 0, oc => oc
  | n + 1, oc => iterParent cats n (oc.bind (parentOf cats))

/-- The parent graph is acyclic: from every category the parent chain
reaches a root (or an unresolved reference) within `cats.length + 1`
steps.  For a finite category set this bound is no restriction, since a
terminating chain never revisits a node. -/
def Acyclic (cats : List Category) : Prop :=
  ∀ c ∈ cats, iterParent cats (cats.length + 1) (some c) = none

instance (cats : List Category) : Decidable (Acyclic cats) := by
  unfold Acyclic; infer_instance

/-- The number of parent-chain steps (resolved ancestors) taken from a
node, with fuel. -/
def countAncestors (cats : List Category) : Nat → Category → Nat
  | 0, _ => 0
  | fuel + 1, c =>
    match parentOf cats c with
    | some p => countAncestors cats fuel p + 1
    | none => 0

/-- The root-ancestor walk of the search page's result grouping:
`while (current?.parentId) { rootId = current.parentId; current =
categoryMap.get(current.parentId) }`. -/
def rootIdWalk (cats : List Category) : Nat → String → Option Category → String
  | 0, rootId, _ => rootId
  | fuel + 1, rootId, cur =>
    match cur with
    | none => rootId
    | some c =>
      match c.parentId with
      | none => rootId
      | some p => if p = "" then rootId else rootIdWalk cats fuel p (mapGet cats p)

/-! ### Basic lemmas about the category map and parent chains -/

theorem mapGet_mem {cats : List Category} {i : String} {c : Category}
    (h : mapGet cats i = some c) : c ∈ cats ∧ c.id = i := by
  induction cats with
  | nil => simp [mapGet] at h
  | cons d ds ih =>
    simp only [mapGet] at h
    cases hd : mapGet ds i with
    | some e =>
      rw [hd] at h
      obtain ⟨he, hi⟩ := ih (hd.trans h)
      exact ⟨List.mem_cons_of_mem _ he, hi⟩
    | none =>
      rw [hd] at h
      by_cases hid : d.id = i
      · simp [hid] at h
        exact ⟨by simp [← h], by rw [← h]; exact hid⟩
      · simp [hid] at h

theorem mapGet_eq_none {cats : List Category} {i : String}
    (h : ∀ d ∈ cats, d.id ≠ i) : mapGet cats i = none := by
  induction cats with
  | nil => rfl
  | cons d ds ih =>
    simp only [mapGet]
    rw [ih fun e he => h e (List.mem_cons_of_mem _ he)]
    simp [h d (List.mem_cons_self _ _)]

theorem mapGet_isSome {cats : List Category} {c : Category}
    (hc : c ∈ cats) : (mapGet cats c.id).isSome := by
  induction cats with
  | nil => simp at hc
  | cons d ds ih =>
    simp only [mapGet]
    rcases List.mem_cons.mp hc with h | h
    · cases hm : mapGet ds c.id with
      | some e => simp
      | none => simp [h]
    · cases hm : mapGet ds c.id with
      | some e => simp
      | none => have := ih h; rw [hm] at this; simp at this

/-- All ids are pairwise distinct (as a property of the record list:
categories with the same id are the same record). -/
def UniqueIds (cats : List Category) : Prop :=
  ∀ a ∈ cats, ∀ b ∈ cats, a.id = b.id → a = b

/-- No category has the empty string as id. -/
def NonemptyIds (cats : List Category) : Prop :=
  ∀ c ∈ cats, c.id ≠ ""

/-- Slugs are unique within each sibling group. -/
def SlugUniqueSiblings (cats : List Category) : Prop :=
  ∀ a ∈ cats, ∀ b ∈ cats, a.parentId = b.parentId → a.slug = b.slug → a = b

instance (cats : List Category) : Decidable (UniqueIds cats) := by
  unfold UniqueIds; infer_instance

instance (cats : List Category) : Decidable (NonemptyIds cats) := by
  unfold NonemptyIds; infer_instance

instance (cats : List Category) : Decidable (SlugUniqueSiblings cats) := by
  unfold SlugUniqueSiblings; infer_instance

theorem mapGet_unique {cats : List Category} (hU : UniqueIds cats)
    {p : Category} (hp : p ∈ cats) : mapGet cats p.id = some p := by
  cases hm : mapGet cats p.id with
  | none => have := mapGet_isSome hp; rw [hm] at this; simp at this
  | some q =>
    obtain ⟨hq, hqi⟩ := mapGet_mem hm
    rw [hU q hq p hp hqi]

theorem iterParent_none (cats : List Category) (n : Nat) :
    iterParent cats n none = none := by
  induction n with
  | zero => rfl
  | succ n ih => simpa [iterParent] using ih

theorem iterParent_succ_some (cats : List Category) (n : Nat) (c : Category) :
    iterParent cats (n + 1) (some c) = iterParent cats n (parentOf cats c) := rfl

/-- Fuel-stability of the parent-chain slug walk: once the chain from `c`
is known to die out within `d` steps, any fuel of at least `d` gives the
same segment list. -/
theorem chainSlugs_stable {cats : List Category} :
    ∀ d : Nat, ∀ c : Category, ∀ fuel : Nat,
      iterParent cats d (some c) = none → d ≤ fuel →
      chainSlugs cats fuel c = chainSlugs cats d c := by
  intro d
  induction d with
  | zero => intro c fuel h _; simp [iterParent] at h
  | succ d ih =>
    intro c fuel h hle
    rw [iterParent_succ_some] at h
    cases fuel with
    | zero => omega
    | succ f =>
      have hdf : d ≤ f := by omega
      cases hp : parentOf cats c with
      | none => simp [chainSlugs, hp]
      | some p =>
        rw [hp] at h
        simp only [chainSlugs, hp]
        rw [ih p f h hdf, ih p d h (Nat.le_refl d)]

theorem chainSlugs_length {cats : List Category} :
    ∀ d : Nat, ∀ c : Category, ∀ fuel : Nat,
      iterParent cats d (some c) = none → d ≤ fuel →
      (chainSlugs cats fuel c).length = countAncestors cats fuel c + 1 := by
  intro d
  induction d with
  | zero => intro c fuel h _; simp [iterParent] at h
  | succ d ih =>
    intro c fuel h hle
    rw [iterParent_succ_some] at h
    cases fuel with
    | zero => omega
    | succ f =>
      have hdf : d ≤ f := by omega
      cases hp : parentOf cats c with
      | none => simp [chainSlugs, countAncestors, hp]
      | some p =>
        rw [hp] at h
        simp only [chainSlugs, countAncestors, hp, List.length_append,
          List.length_cons, List.length_nil]
        rw [ih p f h hdf]

theorem countAncestors_stable {cats : List Category} :
    ∀ d : Nat, ∀ c : Category, ∀ fuel : Nat,
      iterParent cats d (some c) = none → d ≤ fuel →
      countAncestors cats fuel c = countAncestors cats d c := by
  intro d
  induction d with
  | zero => intro c fuel h _; simp [iterParent] at h
  | succ d ih =>
    intro c fuel h hle
    rw [iterParent_succ_some] at h
    cases fuel with
    | zero => omega
    | succ f =>
      have hdf : d ≤ f := by omega
      cases hp : parentOf cats c with
      | none => simp [countAncestors, hp]
      | some p =>
        rw [hp] at h
        simp only [countAncestors, hp]
        rw [ih p f h hdf, ih p d h (Nat.le_refl d)]

theorem rootIdWalk_none (cats : List Category) (fuel : Nat) (rid : String) :
    rootIdWalk cats fuel rid none = rid := by
  cases fuel <;> rfl

theorem rootIdWalk_stable {cats : List Category} :
    ∀ d : Nat, ∀ c : Category, ∀ fuel : Nat, ∀ s : String,
      iterParent cats d (some c) = none → d ≤ fuel →
      rootIdWalk cats fuel s (some c) = rootIdWalk cats d s (some c) := by
  intro d
  induction d with
  | zero => intro c fuel s h _; simp [iterParent] at h
  | succ d ih =>
    intro c fuel s h hle
    rw [iterParent_succ_some] at h
    cases fuel with
    | zero => omega
    | succ f =>
      have hdf : d ≤ f := by omega
      simp only [rootIdWalk]
      cases hpid : c.parentId with
      | none => rfl
      | some p =>
        by_cases hpe : p = ""
        · simp [hpe]
        · simp only [hpe, if_neg hpe]
          have hpar : parentOf cats c = mapGet cats p := by
            simp [parentOf, hpid, hpe]
          rw [hpar] at h
          cases hm : mapGet cats p with
          | none => simp [rootIdWalk_none]
          | some q =>
            rw [hm] at h
            simpa using ih q f p h hdf

/-! ### Slug-path resolution (`findTopicBySlugPath` / `getTopicMetadata`) -/

/-- The `for (const slug of slugPath)` loop of `findTopicBySlugPath`
(`mdx.ts`): walk `childrenMap` segment by segment, tracking the running
`parentId` (`none` for the JS `null` start).  `none` models the early
`return null` when a segment has no matching child; `some pid` models
falling out of the loop with final `parentId = pid`. -/
def findLoop (cats : List Category) : Option String → List String → Option (Option String)
  | pid, [] => some pid
  | pid, s :: rest =>
    match (childrenMap cats pid).find? (fun c => c.slug == s) with
    | some found => findLoop cats (some found.id) rest
    | none => none

/-- `findTopicBySlugPath` from `mdx.ts`: after the loop,
`if (parentId) return categoryMap.get(parentId) || null; return null;`
(JS truthiness: the empty-string id is falsy). -/
def findTopicBySlugPath (cats : List Category) (slugPath : List String) : Option Category :=
  match findLoop cats none slugPath with
  | some (some i) => if i = "" then none else mapGet cats i
  | some none => none
  | none => none

/-- The projection returned by `getTopicMetadata`. -/
structure TopicMeta where
  title : String
  description : String
  tags : List String
  icon : Option String
deriving DecidableEq, Repr

/-- `getTopicMetadata` from `mdx.ts`: `findTopicBySlugPath` projected to
the metadata fields. -/
def getTopicMetadata (cats : List Category) (slugPath : List String) : Option TopicMeta :=
  (findTopicBySlugPath cats slugPath).map fun c =>
    ⟨c.title, c.description, c.tags, c.icon⟩

theorem mem_childrenMap {cats : List Category} {pid : Option String} {c : Category} :
    c ∈ childrenMap cats pid ↔ c ∈ cats ∧ c.parentId = pid := by
  simp [childrenMap, List.mem_filter]

theorem findLoop_some_shape {cats : List Category} :
    ∀ path : List String, ∀ pid r : Option String,
      findLoop cats pid path = some r →
      (path = [] ∧ r = pid) ∨ ∃ found ∈ cats, r = some found.id := by
  intro path
  induction path with
  | nil => intro pid r h; left; simp only [findLoop, Option.some.injEq] at h; exact ⟨rfl, h.symm⟩
  | cons s rest ih =>
    intro pid r h
    simp only [findLoop] at h
    cases hf : (childrenMap cats pid).find? (fun c => c.slug == s) with
    | none => rw [hf] at h; simp at h
    | some found =>
      rw [hf] at h
      right
      have hmem : found ∈ cats :=
        (mem_childrenMap.mp (List.mem_of_find?_eq_some hf)).1
      rcases ih (some found.id) r h with ⟨_, rfl⟩ | ⟨f', hf', rfl⟩
      · exact ⟨found, hmem, rfl⟩
      · exact ⟨f', hf', rfl⟩

theorem chainSlugs_ne_nil (cats : List Category) (fuel : Nat) (c : Category) :
    chainSlugs cats fuel c ≠ [] := by
  cases fuel with
  | zero => simp [chainSlugs]
  | succ f => cases hp : parentOf cats c <;> simp [chainSlugs, hp]

theorem joinSep_append_single (sep : String) :
    ∀ xs : List String, xs ≠ [] → ∀ y,
      joinSep sep (xs ++ [y]) = joinSep sep xs ++ sep ++ y := by
  intro xs
  induction xs with
  | nil => intro h; simp at h
  | cons x xs ih =>
    intro _ y
    cases xs with
    | nil => simp [joinSep]
    | cons z zs =>
      have h1 : (x :: z :: zs) ++ [y] = x :: ((z :: zs) ++ [y]) := by simp
      rw [h1]
      have h2 : joinSep sep (x :: ((z :: zs) ++ [y])) =
          x ++ sep ++ joinSep sep ((z :: zs) ++ [y]) := by
        simp only [List.cons_append, joinSep, List.append_eq]
      rw [h2, ih (by simp) y]
      simp only [joinSep, String.append_assoc]

/-- Unfolding one parent step of the bottom-up walk, at the standard fuel,
for a node whose parent chain terminates. -/
theorem chainSlugs_step {cats : List Category} {c p : Category}
    (hp : parentOf cats c = some p)
    (hterm : iterParent cats (cats.length + 1) (some c) = none) :
    chainSlugs cats (cats.length + 1) c =
      chainSlugs cats (cats.length + 1) p ++ [c.slug] := by
  have h' : iterParent cats cats.length (some p) = none := by
    rw [iterParent_succ_some, hp] at hterm; exact hterm
  have : chainSlugs cats (cats.length + 1) c =
      chainSlugs cats cats.length p ++ [c.slug] := by
    simp only [chainSlugs, hp]
  rw [this, chainSlugs_stable cats.length p (cats.length + 1) h' (Nat.le_succ _)]

theorem buildHref_step {cats : List Category} {c p : Category}
    (hp : parentOf cats c = some p)
    (hterm : iterParent cats (cats.length + 1) (some c) = none) :
    buildHref cats c = buildHref cats p ++ "/" ++ c.slug := by
  unfold buildHref
  rw [chainSlugs_step hp hterm,
    joinSep_append_single _ _ (chainSlugs_ne_nil _ _ _) _]
  simp [String.append_assoc]

theorem buildHref_root {cats : List Category} {c : Category}
    (hp : parentOf cats c = none) : buildHref cats c = "/topics/" ++ c.slug := by
  unfold buildHref
  simp [chainSlugs, hp, joinSep]

/-- Walking down a slug path from `pid` with an already-resolved prefix
`pre` of slugs: a successful `findLoop` run ends at a category in the set
whose bottom-up slug chain is exactly `pre ++ path`. -/
theorem findLoop_chain {cats : List Category} (hA : Acyclic cats)
    (hU : UniqueIds cats) (hN : NonemptyIds cats) :
    ∀ path : List String, ∀ pid : Option String, ∀ pre : List String,
      ((pid = none ∧ pre = []) ∨
        (∃ p ∈ cats, pid = some p.id ∧
          chainSlugs cats (cats.length + 1) p = pre)) →
      ∀ i, findLoop cats pid path = some (some i) →
      ∃ q ∈ cats, q.id = i ∧ chainSlugs cats (cats.length + 1) q = pre ++ path := by
  intro path
  induction path with
  | nil =>
    intro pid pre hinv i h
    simp only [findLoop, Option.some.injEq] at h
    rcases hinv with ⟨rfl, rfl⟩ | ⟨p, hp, hpid, hchain⟩
    · simp at h
    · rw [hpid] at h
      obtain rfl : p.id = i := by injection h
      exact ⟨p, hp, rfl, by simpa using hchain⟩
  | cons s rest ih =>
    intro pid pre hinv i h
    simp only [findLoop] at h
    cases hf : (childrenMap cats pid).find? (fun c => c.slug == s) with
    | none => rw [hf] at h; simp at h
    | some found =>
      rw [hf] at h
      have hmem := mem_childrenMap.mp (List.mem_of_find?_eq_some hf)
      have hslug : found.slug = s := by
        have := List.find?_some hf; simpa using this
      have hchainf : chainSlugs cats (cats.length + 1) found = pre ++ [s] := by
        rcases hinv with ⟨hpidn, rfl⟩ | ⟨p, hp, hpid, hchain⟩
        · have hpar : parentOf cats found = none := by
            have hfp : found.parentId = none := by rw [hmem.2, hpidn]
            simp [parentOf, hfp]
          simp [chainSlugs, hpar, hslug]
        · have hne : p.id ≠ "" := hN p hp
          have hpar : parentOf cats found = some p := by
            have hfp : found.parentId = some p.id := by rw [hmem.2, hpid]
            simp [parentOf, hfp, hne, mapGet_unique hU hp]
          rw [chainSlugs_step hpar (hA found hmem.1), hchain, hslug]
      have := ih (some found.id) (pre ++ [s])
        (Or.inr ⟨found, hmem.1, rfl, hchainf⟩) i h
      simpa [List.append_assoc] using this

/-- Round trip between top-down slug-path resolution and the bottom-up
href: under acyclicity and unique non-empty ids, a resolved category's
`buildHref` reproduces the original path. -/
theorem findTopic_buildHref_roundtrip {cats : List Category} (hA : Acyclic cats)
    (hU : UniqueIds cats) (hN : NonemptyIds cats) :
    ∀ path c, findTopicBySlugPath cats path = some c →
      buildHref cats c = "/topics/" ++ joinSep "/" path := by
  intro path c h
  unfold findTopicBySlugPath at h
  cases hl : findLoop cats none path with
  | none => rw [hl] at h; simp at h
  | some r =>
    rw [hl] at h
    cases r with
    | none => simp at h
    | some i =>
      by_cases hi : i = ""
      · simp [hi] at h
      · simp only [if_neg hi] at h
        obtain ⟨q, hq, hqi, hqchain⟩ :=
          findLoop_chain hA hU hN path none [] (Or.inl ⟨rfl, rfl⟩) i hl
        have hmq : mapGet cats i = some q := by
          rw [← hqi]; exact mapGet_unique hU hq
        rw [hmq] at h
        obtain rfl : q = c := by injection h
        unfold buildHref
        rw [hqchain]
        simp

/-! ### A stable sort, modelling `Array.prototype.sort`

JavaScript's `Array.prototype.sort` (ES2019 and later) is a stable sort;
for a comparator that induces a total preorder the result is the unique
stable sort, here modelled by insertion sort with `le a b` standing for
`comparator(a, b) <= 0`. -/

/-- Insert `x` after all existing elements `y` with `le y x` (so that ties
keep the original order). -/
def insertLE {α : Type} (le : α → α → Bool) (x : α) : List α → List α
  | [] => [x]
  | y :: ys => if le y x then y :: insertLE le x ys else x :: y :: ys

/-- Stable sort by `le`: insert the elements in input order. -/
def stableSort {α : Type} (le : α → α → Bool) (l : List α) : List α :=
  l.foldl (fun acc x => insertLE le x acc) []

theorem mem_insertLE {α : Type} (le : α → α → Bool) (x : α) :
    ∀ l : List α, ∀ a, a ∈ insertLE le x l ↔ a = x ∨ a ∈ l := by
  intro l
  induction l with
  | nil => intro a; simp [insertLE]
  | cons y ys ih =>
    intro a
    simp only [insertLE]
    cases hyx : le y x with
    | true =>
      simp only [if_true, List.mem_cons, ih a]
      tauto
    | false =>
      simp only [Bool.false_eq_true, if_false, List.mem_cons]

theorem insertLE_perm {α : Type} (le : α → α → Bool) (x : α) :
    ∀ l : List α, List.Perm (insertLE le x l) (x :: l) := by
  intro l
  induction l with
  | nil => simp [insertLE]
  | cons y ys ih =>
    simp only [insertLE]
    cases hyx : le y x with
    | true =>
      simp only [if_true]
      exact (ih.cons y).trans (List.Perm.swap x y ys)
    | false => simp

theorem pairwise_insertLE {α : Type} (le : α → α → Bool)
    (htot : ∀ a b, le a b = true ∨ le b a = true)
    (htrans : ∀ a b c, le a b = true → le b c = true → le a c = true)
    (x : α) : ∀ l : List α, List.Pairwise (fun a b => le a b = true) l →
      List.Pairwise (fun a b => le a b = true) (insertLE le x l) := by
  intro l
  induction l with
  | nil => intro _; simp [insertLE]
  | cons y ys ih =>
    intro hp
    rw [List.pairwise_cons] at hp
    obtain ⟨hy, hys⟩ := hp
    simp only [insertLE]
    cases hyx : le y x with
    | true =>
      simp only [if_true]
      rw [List.pairwise_cons]
      refine ⟨fun z hz => ?_, ih hys⟩
      rw [mem_insertLE] at hz
      rcases hz with rfl | hz
      · exact hyx
      · exact hy z hz
    | false =>
      simp only [Bool.false_eq_true, if_false]
      have hxy : le x y = true := by
        rcases htot x y with h | h
        · exact h
        · rw [h] at hyx; cases hyx
      rw [List.pairwise_cons]
      refine ⟨fun z hz => ?_, List.pairwise_cons.mpr ⟨hy, hys⟩⟩
      rcases List.mem_cons.mp hz with rfl | hz
      · exact hxy
      · exact htrans x y z hxy (hy z hz)

theorem pairwise_foldl_insert {α : Type} (le : α → α → Bool)
    (htot : ∀ a b, le a b = true ∨ le b a = true)
    (htrans : ∀ a b c, le a b = true → le b c = true → le a c = true) :
    ∀ l acc : List α, List.Pairwise (fun a b => le a b = true) acc →
      List.Pairwise (fun a b => le a b = true)
        (l.foldl (fun acc x => insertLE le x acc) acc) := by
  intro l
  induction l with
  | nil => intro acc h; exact h
  | cons x xs ih =>
    intro acc h
    rw [List.foldl_cons]
    exact ih _ (pairwise_insertLE le htot htrans x acc h)

theorem pairwise_stableSort {α : Type} (le : α → α → Bool)
    (htot : ∀ a b, le a b = true ∨ le b a = true)
    (htrans : ∀ a b c, le a b = true → le b c = true → le a c = true)
    (l : List α) :
    List.Pairwise (fun a b => le a b = true) (stableSort le l) :=
  pairwise_foldl_insert le htot htrans l [] (by simp)

theorem foldl_insert_perm {α : Type} (le : α → α → Bool) :
    ∀ l acc : List α,
      List.Perm (l.foldl (fun acc x => insertLE le x acc) acc) (acc ++ l) := by
  intro l
  induction l with
  | nil => intro acc; simp
  | cons x xs ih =>
    intro acc
    rw [List.foldl_cons]
    refine (ih (insertLE le x acc)).trans ?_
    refine (List.Perm.append_right xs (insertLE_perm le x acc)).trans ?_
    exact (List.perm_middle).symm

theorem stableSort_perm {α : Type} (le : α → α → Bool) (l : List α) :
    List.Perm (stableSort le l) l := by
  simpa using foldl_insert_perm le l []

theorem filter_insertLE_neg {α : Type} (le : α → α → Bool) (p : α → Bool)
    (x : α) (hx : p x = false) :
    ∀ l : List α, (insertLE le x l).filter p = l.filter p := by
  intro l
  induction l with
  | nil => simp [insertLE, hx]
  | cons y ys ih =>
    simp only [insertLE]
    cases hyx : le y x with
    | true =>
      simp only [if_true]
      cases hpy : p y <;> simp [List.filter_cons, hpy, ih]
    | false =>
      simp only [Bool.false_eq_true, if_false]
      simp [List.filter_cons, hx]

theorem filter_insertLE_pos {α : Type} (le : α → α → Bool)
    (htrans : ∀ a b c, le a b = true → le b c = true → le a c = true)
    (p : α → Bool) (x : α) (hx : p x = true)
    (hcls : ∀ a, p a = true → le a x = true) :
    ∀ l : List α, List.Pairwise (fun a b => le a b = true) l →
      (insertLE le x l).filter p = l.filter p ++ [x] := by
  intro l
  induction l with
  | nil => intro _; simp [insertLE, List.filter_cons, hx]
  | cons y ys ih =>
    intro hp
    rw [List.pairwise_cons] at hp
    obtain ⟨hy, hys⟩ := hp
    simp only [insertLE]
    cases hyx : le y x with
    | true =>
      simp only [if_true]
      cases hpy : p y <;> simp [List.filter_cons, hpy, ih hys]
    | false =>
      simp only [Bool.false_eq_true, if_false]
      have hpy : p y = false := by
        cases hq : p y
        · rfl
        · rw [hcls y hq] at hyx; cases hyx
      have hys0 : ys.filter p = [] := by
        rw [List.filter_eq_nil_iff]
        intro z hz
        cases hq : p z
        · simp
        · exfalso
          have h1 : le y z = true := hy z hz
          have h2 : le z x = true := hcls z hq
          rw [htrans y z x h1 h2] at hyx
          cases hyx
      simp [List.filter_cons, hx, hpy, hys0]

theorem filter_foldl_insert {α : Type} (le : α → α → Bool)
    (htot : ∀ a b, le a b = true ∨ le b a = true)
    (htrans : ∀ a b c, le a b = true → le b c = true → le a c = true)
    (p : α → Bool) (hcls : ∀ a b, p a = true → p b = true → le a b = true) :
    ∀ l acc : List α, List.Pairwise (fun a b => le a b = true) acc →
      (l.foldl (fun acc x => insertLE le x acc) acc).filter p =
        acc.filter p ++ l.filter p := by
  intro l
  induction l with
  | nil => intro acc _; simp
  | cons x xs ih =>
    intro acc hacc
    rw [List.foldl_cons]
    rw [ih _ (pairwise_insertLE le htot htrans x acc hacc)]
    cases hx : p x with
    | false =>
      rw [filter_insertLE_neg le p x hx acc]
      simp [List.filter_cons, hx]
    | true =>
      rw [filter_insertLE_pos le htrans p x hx (fun a ha => hcls a x ha hx) acc hacc]
      simp [List.filter_cons, hx]

/-- Stability of the sort: the elements of any comparator-equivalence
class (`p` selecting elements that are mutually `le`) appear in the sorted
output exactly in their input order. -/
theorem stableSort_filter {α : Type} (le : α → α → Bool)
    (htot : ∀ a b, le a b = true ∨ le b a = true)
    (htrans : ∀ a b c, le a b = true → le b c = true → le a c = true)
    (p : α → Bool) (hcls : ∀ a b, p a = true → p b = true → le a b = true)
    (l : List α) : (stableSort le l).filter p = l.filter p := by
  simpa using filter_foldl_insert le htot htrans p hcls l [] (by simp)

/-! ### Search (`SearchBar.tsx`, search page, `searchTopics` in `mdx.ts`) -/

/-- The character class matched by `\s` in JavaScript regular expressions
and trimmed by `String.prototype.trim`. -/
def isSpaceJS (c : Char) : Bool :=
  c = ' ' || c = '\t' || c = '\n' || c = '\r' ||
  c.toNat = 0x0B || c.toNat = 0x0C || c.toNat = 0xA0 || c.toNat = 0x1680 ||
  (0x2000 ≤ c.toNat && c.toNat ≤ 0x200A) ||
  c.toNat = 0x2028 || c.toNat = 0x2029 || c.toNat = 0x202F ||
  c.toNat = 0x205F || c.toNat = 0x3000 || c.toNat = 0xFEFF

/-- The JavaScript LineTerminator characters (excluded by `.`, matched
around by `^`/`$` in multiline mode). -/
def isLineTermJS (c : Char) : Bool :=
  c = '\n' || c = '\r' || c.toNat = 0x2028 || c.toNat = 0x2029

/-- `String.prototype.trim`. -/
def jsTrim (s : String) : String :=
  String.mk (((s.toList.dropWhile isSpaceJS).reverse.dropWhile isSpaceJS).reverse)

/-- Substring test on character lists (`String.prototype.includes`): the
needle occurs as a contiguous run somewhere in the haystack. -/
def isInfixChars (needle : List Char) : List Char → Bool
  | [] => needle.isEmpty
  | c :: rest => needle.isPrefixOf (c :: rest) || isInfixChars needle rest

/-- Case-insensitive substring test:
`hay.toLowerCase().includes(needle.toLowerCase())` (ASCII case mapping in
this embedding). -/
def containsCI (hay needle : String) : Bool :=
  isInfixChars needle.toLower.toList hay.toLower.toList

/-- The `matchType` discriminator of a search result. -/
inductive MatchType where
  | title
  | description
  | tags
deriving DecidableEq, Repr

/-- A search result: the matched item together with its single
`matchType`. -/
structure SearchResult where
  item : Category
  matchType : MatchType
deriving DecidableEq, Repr

/-- The if/else-if chain of `search`: try title, then description, then
tags; the first hit fixes the match type. -/
def matchOf (q : String) (item : Category) : Option MatchType :=
  if containsCI item.title q then some MatchType.title
  else if containsCI item.description q then some MatchType.description
  else if item.tags.any (fun t => containsCI t q) then some MatchType.tags
  else none

/-- The disjunction "title, description or some tag contains the query". -/
def catMatches (q : String) (c : Category) : Bool :=
  containsCI c.title q || containsCI c.description q ||
    c.tags.any (fun t => containsCI t q)

/-- The search comparator as a boolean preorder (`comparator(a, b) <= 0`):
title matches first, then ascending `order`. -/
def resultLE (a b : SearchResult) : Bool :=
  match a.matchType == MatchType.title, b.matchType == MatchType.title with
  | true, false => true
  | false, true => false
  | _, _ => decide (a.item.order ≤ b.item.order)

/-- The `matches` array before sorting: one `SearchResult` per item with a
non-null match type, in item order. -/
def annotate (q : String) (items : List Category) : List SearchResult :=
  items.filterMap fun it => (matchOf q it).map (⟨it, ·⟩)

/-- `search` from `SearchBar.tsx` / the search page, up to (but not
including) the final `slice`: empty-trim short circuit, the matching pass
in item order, and the stable comparator sort. -/
def searchAll (q : String) (items : List Category) : List SearchResult :=
  if jsTrim q = "" then []
  else stableSort resultLE (annotate q items)

/-- The header quick-search (`SearchBar.tsx`): `matches.slice(0, 8)`. -/
def searchHeader (q : String) (items : List Category) : List SearchResult :=
  (searchAll q items).take 8

/-- The full-page search: `matches.slice(0, 20)`. -/
def searchPage (q : String) (items : List Category) : List SearchResult :=
  (searchAll q items).take 20

/-- The `Topic` records produced by `getAllTopics` in `mdx.ts`. -/
structure Topic where
  id : String
  title : String
  slug : String
  description : String
  parentId : Option String
  order : Int
  tags : List String
  content : String
  icon : Option String
deriving DecidableEq, Repr

/-- `getAllTopics` from `mdx.ts` (content loaded separately, hence `""`). -/
def getAllTopics (cats : List Category) : List Topic :=
  cats.map fun c =>
    ⟨c.id, c.title, c.slug, c.description, c.parentId, c.order, c.tags, "", c.icon⟩

/-- The filter predicate of `searchTopics`. -/
def topicMatches (q : String) (t : Topic) : Bool :=
  containsCI t.title q || containsCI t.description q ||
    t.tags.any (fun tag => containsCI tag q)

/-- `searchTopics` from `mdx.ts`: empty-trim short circuit, filter, then
`slice(0, 20)` (no sort, no match type). -/
def searchTopics (cats : List Category) (query : String) : List Topic :=
  if jsTrim query = "" then []
  else ((getAllTopics cats).filter (topicMatches query)).take 20

/-! ### Navigation tree (`getNavigationTree` in `mdx.ts`) -/

/-- A node of the sidebar navigation tree. -/
inductive NavItem where
  | mk (title : String) (href : String) (children : List NavItem)

/-- The sibling comparator of `buildTree` (`(a, b) => a.order - b.order`
as a boolean preorder). -/
def orderLE (a b : Category) : Bool := decide (a.order ≤ b.order)

/-- The recursive `buildTree` of `getNavigationTree`, with fuel for the
unbounded recursion: children of `pid` sorted stably by `order`, each
mapped to a `NavItem` whose href extends the running base path. -/
def buildTree (cats : List Category) : Nat → Option String → String → List NavItem
  | 0, _, _ => []
  | fuel + 1, pid, base =>
    (stableSort orderLE (childrenMap cats pid)).map fun c =>
      NavItem.mk c.title (base ++ "/" ++ c.slug)
        (buildTree cats fuel (some c.id) (base ++ "/" ++ c.slug))

/-- `getNavigationTree()`: `buildTree(null)` with base path `/topics`. -/
def getNavigationTree (cats : List Category) : List NavItem :=
  buildTree cats (cats.length + 1) none "/topics"

/-- The (category, href) pairs enumerated, top-down and in pre-order, by
the `buildTree` recursion: the shadow of `buildTree` that remembers which
category produced each node. -/
def treePairs (cats : List Category) : Nat → Option String → String → List (Category × String)
  | 0, _, _ => []
  | fuel + 1, pid, base =>
    (stableSort orderLE (childrenMap cats pid)).flatMap fun c =>
      (c, base ++ "/" ++ c.slug) :: treePairs cats fuel (some c.id) (base ++ "/" ++ c.slug)

/-! ### Prev/next pagination (`getPrevNextTopics` in `mdx.ts`) -/

/-- The `{ title, href }` record returned for a prev/next neighbour. -/
structure PrevNextEntry where
  title : String
  href : String
deriving DecidableEq, Repr

/-- The inner `getTopicInfo` of `getPrevNextTopics`: resolve the metadata
and build the href from the joined slug path; `null` when unresolvable. -/
def getTopicInfo (cats : List Category) (slug : List String) : Option PrevNextEntry :=
  match getTopicMetadata cats slug with
  | some m => some ⟨m.title, "/topics/" ++ joinSep "/" slug⟩
  | none => none

/-- `getPrevNextTopics` from `mdx.ts`: locate the path in
`getAllTopicSlugs()` by joined-string equality (first matching index),
then look up the neighbours. -/
def getPrevNextTopics (cats : List Category) (slugPath : List String) :
    Option PrevNextEntry × Option PrevNextEntry :=
  let allSlugs := getAllTopicSlugs cats
  let cur := joinSep "/" slugPath
  match allSlugs.findIdx? (fun s => joinSep "/" s == cur) with
  | none => (none, none)
  | some i =>
    let prevSlug : Option (List String) := if 0 < i then allSlugs[i - 1]? else none
    let nextSlug : Option (List String) :=
      if i + 1 < allSlugs.length then allSlugs[i + 1]? else none
    (prevSlug.bind (getTopicInfo cats), nextSlug.bind (getTopicInfo cats))

/-! ### Table of contents (`extractTableOfContents` in `mdx.ts`)

The extraction repeatedly applies `/^(#{2,4})\s+(.+)$/gm` to the content.
The embedding mirrors the JavaScript regex semantics: `^` matches at the
start or after a line terminator, `\s+` is greedy over the `\s` class
(which includes line terminators, so a heading's hashes and text can sit
on different lines), `.` excludes line terminators, and greedy `\s+`
backtracks just enough for `(.+)` to match at least one character. -/

/-- A table-of-contents entry (`TableOfContentsItem`). -/
structure TocItem where
  id : String
  text : String
  level : Nat
deriving DecidableEq, Repr

/-- One attempted match of `/\[([^\]]+)\]\([^)]+\)/` at the current
position: bracketed non-empty link text, then a parenthesised non-empty
url; returns the link text and the remainder after the match. -/
def tryLink : List Char → Option (List Char × List Char)
  | '[' :: rest =>
    let t := rest.takeWhile (fun c => c ≠ ']')
    let r1 := rest.dropWhile (fun c => c ≠ ']')
    match t, r1 with
    | [], _ => none
    | _, ']' :: '(' :: r2 =>
      let u := r2.takeWhile (fun c => c ≠ ')')
      let r3 := r2.dropWhile (fun c => c ≠ ')')
      match u, r3 with
      | [], _ => none
      | _, ')' :: r4 => some (t, r4)
      | _, _ => none
    | _, _ => none
  | _ => none

/-- The left-to-right scan of `String.prototype.replace` with the link
regex: each match is replaced by its link text (which is not rescanned). -/
def stripML : Nat → List Char → List Char
  | 0, cs => cs
  | _ + 1, [] => []
  | fuel + 1, c :: cs =>
    if c = '[' then
      match tryLink (c :: cs) with
      | some (t, rest) => t ++ stripML fuel rest
      | none => c :: stripML fuel cs
    else c :: stripML fuel cs

/-- `stripMarkdownLinks` from `mdx.ts`. -/
def stripMarkdownLinks (s : String) : String :=
  String.mk (stripML (s.toList.length + 1) s.toList)

/-- The characters kept verbatim by the id slug (`[a-z0-9]` after
lowercasing). -/
def isIdChar (c : Char) : Bool :=
  ('a' ≤ c && c ≤ 'z') || ('0' ≤ c && c ≤ '9')

mutual

/-- `replace(/[^a-z0-9]+/g, '-')`: copy id characters, collapse each
maximal run of other characters to a single hyphen. -/
def collapseRuns : List Char → List Char
  | [] => []
  | c :: cs => if isIdChar c then c :: collapseRuns cs else '-' :: skipRun cs

/-- Inside a run of non-id characters (already replaced by one hyphen). -/
def skipRun : List Char → List Char
  | [] => []
  | c :: cs => if isIdChar c then c :: collapseRuns cs else skipRun cs

end

/-- Drop a single leading hyphen (the `^-` alternative of
`replace(/(^-|-$)/g, '')`). -/
def dropLeadHyphen : List Char → List Char
  | [] => []
  | c :: t => if c = '-' then t else c :: t

/-- `replace(/(^-|-$)/g, '')`: one leading and one trailing hyphen are
removed. -/
def stripEdgeHyphens (l : List Char) : List Char :=
  if (dropLeadHyphen l).getLast? = some '-' then (dropLeadHyphen l).dropLast
  else dropLeadHyphen l

/-- The id generation of `extractTableOfContents`: lowercase, collapse
non-alphanumeric runs to hyphens, strip edge hyphens. -/
def headingId (text : String) : String :=
  String.mk (stripEdgeHyphens (collapseRuns (text.toList.map Char.toLower)))

/-- The largest backtracked end position of greedy `\s+` within the
whitespace run `ws` (excluding position `0`, since `\s+` needs one
character, and requiring the character at that position not to be a line
terminator so that `(.+)` can start there). -/
def backJ (ws : List Char) : Option Nat :=
  ((List.range ws.length).filter
    (fun j => decide (0 < j) && !isLineTermJS (ws.getD j ' '))).max?

/-- The length of the `#` run at the current position (the `#{2,4}`
candidate). -/
def headingLevel (cs : List Char) : Nat :=
  (cs.takeWhile (fun c => c = '#')).length

/-- The input after the `#` run. -/
def headingBody (cs : List Char) : List Char :=
  cs.dropWhile (fun c => c = '#')

/-- The end position chosen for greedy `\s+` in `r0` (the input after the
hashes): the full whitespace run when `(.+)` can start right after it,
otherwise the largest backtracked position. -/
def headingJ (r0 : List Char) : Option Nat :=
  match r0.dropWhile isSpaceJS with
  | c :: _ =>
    if isLineTermJS c then backJ (r0.takeWhile isSpaceJS)
    else some (r0.takeWhile isSpaceJS).length
  | [] => backJ (r0.takeWhile isSpaceJS)

/-- The `(.+)` capture: the run of non-line-terminator characters starting
right after the whitespace (`$` then holds at its end by construction). -/
def headingText (r0 : List Char) (j : Nat) : List Char :=
  (r0.drop j).takeWhile (fun c => !isLineTermJS c)

/-- One attempted match of `/^(#{2,4})\s+(.+)$/` at a line-start position:
returns the heading level, the raw `(.+)` capture and the remainder of the
input after the match. -/
def matchHeadingAt (cs : List Char) : Option (Nat × List Char × List Char) :=
  if 2 ≤ headingLevel cs ∧ headingLevel cs ≤ 4 then
    match headingJ (headingBody cs) with
    | some j =>
      if 1 ≤ j then
        some (headingLevel cs, headingText (headingBody cs) j,
          ((headingBody cs).drop j).drop (headingText (headingBody cs) j).length)
      else none
    | none => none
  else none

/-- Build the pushed item from a raw `(.+)` capture: `match[2].trim()`,
strip markdown links, derive the id. -/
def mkTocItem (k : Nat) (raw : List Char) : TocItem :=
  let text := stripMarkdownLinks (jsTrim (String.mk raw))
  ⟨headingId text, text, k⟩

/-- The `while (exec)` loop: scan the content, attempting a heading match
at every line-start position at or after `lastIndex`. -/
def tocScan : Nat → List Char → Bool → List TocItem
  | 0, _, _ => []
  | _ + 1, [], _ => []
  | fuel + 1, c :: cs, atStart =>
    if atStart then
      match matchHeadingAt (c :: cs) with
      | some (k, text, rest) => mkTocItem k text :: tocScan fuel rest false
      | none => tocScan fuel cs (isLineTermJS c)
    else tocScan fuel cs (isLineTermJS c)

/-- `extractTableOfContents` from `mdx.ts`. -/
def extractTableOfContents (content : String) : List TocItem :=
  tocScan (content.toList.length + 1) content.toList true

/-- Modelled from the claim's words, for comparison with the
implementation: "lines beginning with 2, 3, or 4 '#' characters followed
by a space". -/
def claimHeadingLine (line : String) : Bool :=
  let hs := line.toList.takeWhile (fun c => c = '#')
  let rest := line.toList.dropWhile (fun c => c = '#')
  decide (2 ≤ hs.length) && decide (hs.length ≤ 4) &&
    (match rest with
      | ' ' :: _ => true
      | _ => false)

/-! ### Claim C9 -/

/-- **C9**: for every item set, calling `search` (header quick-search and
full-page variants, modelled up to the shared pre-slice list `searchAll`)
or `searchTopics` with a query that is empty or consists only of
whitespace returns the empty result list. -/
theorem c9_empty_query_short_circuit (cats items : List Category) (q : String)
    (h : jsTrim q = "") :
    searchAll q items = [] ∧ searchHeader q items = [] ∧
      searchPage q items = [] ∧ searchTopics cats q = [] := by
  refine ⟨?_, ?_, ?_, ?_⟩ <;>
    simp [searchAll, searchHeader, searchPage, searchTopics, h]

/-- Witness for C9 at the whitespace-only query `"   "`. -/
theorem c9_empty_query_short_circuit_witness :
    jsTrim "   " = "" ∧
      (searchAll "   " [] = [] ∧ searchHeader "   " [] = [] ∧
        searchPage "   " [] = [] ∧ searchTopics [] "   " = []) :=
  ⟨by decide, c9_empty_query_short_circuit [] [] "   " (by decide)⟩

/-! ### Claim C3 -/

/-- **C3 (amended)**: `getTopicMetadata` is total (never throws) and — for
category sets whose ids are all non-empty — returns `none` exactly when the
slug path is empty or the segment walk fails (`findLoop` returns `none`,
i.e. some segment has no matching child under the parent resolved so far);
in particular `getTopicMetadata [] = none` holds unconditionally.  The
restriction to non-empty ids is forced by `c3_counterexample`: a resolved
category whose id is the empty string is falsy in JS, and the final
`if (parentId)` then returns `null` although every segment matched. -/
theorem c3_null_exactly_on_unresolvable (cats : List Category) (path : List String) :
    getTopicMetadata cats ([] : List String) = none ∧
      (NonemptyIds cats →
        (getTopicMetadata cats path = none ↔
          path = [] ∨ findLoop cats none path = none)) := by
  constructor
  · rfl
  · intro hN
    constructor
    · intro h
      cases hl : findLoop cats none path with
      | none => exact Or.inr rfl
      | some r =>
        cases r with
        | none =>
          rcases findLoop_some_shape path none none hl with ⟨hp, _⟩ | ⟨f, _, hf⟩
          · exact Or.inl hp
          · simp at hf
        | some i =>
          exfalso
          rcases findLoop_some_shape path none (some i) hl with ⟨_, hpid⟩ | ⟨f, hfmem, hfi⟩
          · simp at hpid
          · obtain rfl : i = f.id := by injection hfi
            have hi : f.id ≠ "" := hN f hfmem
            have hsome := mapGet_isSome hfmem
            unfold getTopicMetadata findTopicBySlugPath at h
            rw [hl] at h
            simp only [if_neg hi] at h
            cases hm : mapGet cats f.id with
            | none => rw [hm] at hsome; simp at hsome
            | some c => rw [hm] at h; simp at h
    · rintro (rfl | hfl)
      · rfl
      · unfold getTopicMetadata findTopicBySlugPath
        rw [hfl]
        rfl

/-- Witness for C3 on a small category set with non-empty ids and an
unresolvable path. -/
theorem c3_null_exactly_on_unresolvable_witness :
    NonemptyIds [⟨"r", "R", "a", "", none, 0, [], none⟩] ∧
      (getTopicMetadata [⟨"r", "R", "a", "", none, 0, [], none⟩]
          ([] : List String) = none ∧
        (NonemptyIds [⟨"r", "R", "a", "", none, 0, [], none⟩] →
          (getTopicMetadata [⟨"r", "R", "a", "", none, 0, [], none⟩] ["zz"] = none ↔
            ["zz"] = ([] : List String) ∨
              findLoop [⟨"r", "R", "a", "", none, 0, [], none⟩] none ["zz"] = none))) :=
  ⟨by decide,
    c3_null_exactly_on_unresolvable [⟨"r", "R", "a", "", none, 0, [], none⟩] ["zz"]⟩

/-- The single category of the C3 counterexample: its id is the empty
string, which is falsy in JavaScript. -/
def c3Cat : Category := ⟨"", "T", "a", "", none, 0, [], none⟩

/-- Counterexample to C3 as stated: on `[c3Cat]` the path `["a"]` is
non-empty and every segment finds a matching child (the walk succeeds,
ending at the category with id `""`), yet `getTopicMetadata` returns
`none`, because the final truthiness test `if (parentId)` rejects the
empty-string id. -/
theorem c3_counterexample :
    getTopicMetadata [c3Cat] ["a"] = none ∧
      (["a"] : List String) ≠ [] ∧
      findLoop [c3Cat] none ["a"] = some (some "") := by
  refine ⟨by decide, by decide, by decide⟩

/-! ### Claim C2 -/

/-- **C2 (amended)**: for every category set satisfying the invariants —
acyclic parent graph, slug unique within each sibling group, and
(forced by `c2_counterexample`) ids unique and non-empty — every slug path
that `getTopicMetadata` resolves to a category round-trips: `buildHref` on
the resolved category returns `"/topics/"` followed by the original path's
segments joined by `"/"`. -/
theorem c2_resolve_buildHref_roundtrip (cats : List Category)
    (hA : Acyclic cats) (hU : UniqueIds cats) (hN : NonemptyIds cats)
    (_hS : SlugUniqueSiblings cats) (path : List String) (m : TopicMeta)
    (hm : getTopicMetadata cats path = some m) :
    ∃ c, findTopicBySlugPath cats path = some c ∧
      buildHref cats c = "/topics/" ++ joinSep "/" path := by
  unfold getTopicMetadata at hm
  cases hf : findTopicBySlugPath cats path with
  | none => rw [hf] at hm; simp at hm
  | some c => exact ⟨c, rfl, findTopic_buildHref_roundtrip hA hU hN path c hf⟩

/-- The two-level category set of the C2 witness. -/
def c2wCats : List Category :=
  [⟨"r", "Root", "foundations", "", none, 0, [], none⟩,
    ⟨"k", "Kid", "speech-recognition", "", some "r", 0, [], none⟩]

/-- Witness for C2 on a concrete two-level taxonomy. -/
theorem c2_resolve_buildHref_roundtrip_witness :
    (Acyclic c2wCats ∧ UniqueIds c2wCats ∧ NonemptyIds c2wCats ∧
        SlugUniqueSiblings c2wCats ∧
        getTopicMetadata c2wCats ["foundations", "speech-recognition"] =
          some ⟨"Kid", "", [], none⟩) ∧
      ∃ c, findTopicBySlugPath c2wCats ["foundations", "speech-recognition"] = some c ∧
        buildHref c2wCats c =
          "/topics/" ++ joinSep "/" ["foundations", "speech-recognition"] :=
  ⟨⟨by decide, by decide, by decide, by decide, by decide⟩,
    c2_resolve_buildHref_roundtrip c2wCats (by decide) (by decide) (by decide)
      (by decide) ["foundations", "speech-recognition"] ⟨"Kid", "", [], none⟩ (by decide)⟩

/-- C2 counterexample data: two root categories share the id `"x"` (the
category map keeps the later one), and a child points at that id. -/
def c2xC : Category := ⟨"c", "C", "child", "", some "x", 0, [], none⟩

/-- The category set of the C2 counterexample. -/
def c2xCats : List Category :=
  [⟨"x", "A", "a", "", none, 0, [], none⟩,
    ⟨"x", "B", "b", "", none, 1, [], none⟩, c2xC]

/-- Counterexample to C2 as stated (invariants only "acyclic parent graph,
slug unique within each sibling group"): with duplicate ids the path
`["a", "child"]` resolves (through the first root, slug `a`), but the
bottom-up `buildHref` walks through the category map, where the second
root with id `"x"` wins, producing `/topics/b/child`. -/
theorem c2_counterexample :
    Acyclic c2xCats ∧ SlugUniqueSiblings c2xCats ∧
      findTopicBySlugPath c2xCats ["a", "child"] = some c2xC ∧
      buildHref c2xCats c2xC ≠ "/topics/" ++ joinSep "/" ["a", "child"] := by
  refine ⟨by decide, by decide, by decide, by decide⟩

/-! ### Claim C4 -/

/-- The node produced by `buildTree` at any reachable position has its
`parentId` equal to `none` or to an existing category's id; a node whose
`parentId` names a missing id therefore never appears in the tree. -/
theorem treePairs_no_dangling {cats : List Category} {o : Category} {i : String}
    (hp : o.parentId = some i) (hd : ∀ d ∈ cats, d.id ≠ i) :
    ∀ fuel : Nat, ∀ pid : Option String, ∀ base : String,
      (pid = none ∨ ∃ d ∈ cats, pid = some d.id) →
      ∀ pr ∈ treePairs cats fuel pid base, pr.1 ≠ o := by
  intro fuel
  induction fuel with
  | zero => intro pid base _ pr hpr; simp [treePairs] at hpr
  | succ f ih =>
    intro pid base hpid pr hpr
    simp only [treePairs, List.mem_flatMap] at hpr
    obtain ⟨c, hc, hpr⟩ := hpr
    have hcm : c ∈ childrenMap cats pid :=
      ((stableSort_perm orderLE (childrenMap cats pid)).mem_iff).mp hc
    obtain ⟨hcc, hcp⟩ := mem_childrenMap.mp hcm
    rcases List.mem_cons.mp hpr with rfl | hprt
    · intro heq
      have hco : c = o := heq
      rw [hco] at hcp
      rcases hpid with rfl | ⟨d, hdm, rfl⟩
      · rw [hp] at hcp; cases hcp
      · rw [hp] at hcp
        have : i = d.id := by injection hcp
        exact hd d hdm this.symm
    · exact ih (some c.id) _ (Or.inr ⟨c, hcc, rfl⟩) pr hprt

/-- **C4**: a category whose `parentId` references a missing id does not
break any of the walks: the parent-chain walk (`buildHref`,
`getAllTopicSlugs`) stops at the unresolved reference regardless of fuel,
treating the orphan as a root whose own slug is the whole remaining path,
and the `getNavigationTree` recursion never visits the orphan (its
children lookups are only ever keyed by existing ids or `null`), so the
tree is built without failure. -/
theorem c4_dangling_parent_safe (cats : List Category) (o : Category) (i : String)
    (ho : o ∈ cats) (hp : o.parentId = some i) (hd : ∀ d ∈ cats, d.id ≠ i) :
    (∀ fuel, chainSlugs cats fuel o = [o.slug]) ∧
      buildHref cats o = "/topics/" ++ o.slug ∧
      [o.slug] ∈ getAllTopicSlugs cats ∧
      ∀ fuel, o ∉ (treePairs cats fuel none "/topics").map Prod.fst := by
  have hpar : parentOf cats o = none := by
    unfold parentOf; rw [hp]
    by_cases hi : i = ""
    · simp [hi]
    · simp [hi, mapGet_eq_none hd]
  have hchain : ∀ fuel, chainSlugs cats fuel o = [o.slug] := by
    intro fuel
    cases fuel with
    | zero => rfl
    | succ f => simp [chainSlugs, hpar]
  refine ⟨hchain, buildHref_root hpar, ?_, ?_⟩
  · unfold getAllTopicSlugs
    exact List.mem_map.mpr ⟨o, ho, hchain _⟩
  · intro fuel hmem
    rw [List.mem_map] at hmem
    obtain ⟨pr, hpr, hpr1⟩ := hmem
    exact treePairs_no_dangling hp hd fuel none "/topics" (Or.inl rfl) pr hpr hpr1

/-- The category set of the C4 witness: an orphan pointing at the missing
id `"zz"`, next to an ordinary root. -/
def c4Cats : List Category :=
  [⟨"o", "O", "x", "", some "zz", 0, [], none⟩,
    ⟨"r", "R", "a", "", none, 0, [], none⟩]

/-- Witness for C4 on the concrete orphan. -/
theorem c4_dangling_parent_safe_witness :
    ((⟨"o", "O", "x", "", some "zz", 0, [], none⟩ : Category) ∈ c4Cats ∧
        (⟨"o", "O", "x", "", some "zz", 0, [], none⟩ : Category).parentId = some "zz" ∧
        (∀ d ∈ c4Cats, d.id ≠ "zz")) ∧
      ((∀ fuel, chainSlugs c4Cats fuel ⟨"o", "O", "x", "", some "zz", 0, [], none⟩ = ["x"]) ∧
        buildHref c4Cats ⟨"o", "O", "x", "", some "zz", 0, [], none⟩ = "/topics/" ++ "x" ∧
        ["x"] ∈ getAllTopicSlugs c4Cats ∧
        ∀ fuel, (⟨"o", "O", "x", "", some "zz", 0, [], none⟩ : Category) ∉
          (treePairs c4Cats fuel none "/topics").map Prod.fst) :=
  ⟨⟨by decide, by decide, by decide⟩,
    c4_dangling_parent_safe c4Cats ⟨"o", "O", "x", "", some "zz", 0, [], none⟩ "zz"
      (by decide) (by decide) (by decide)⟩

/-! ### Claim C5 -/

/-- **C5**: for every category set with an acyclic parent graph, every
parent-chain walk terminates: the walk of `buildHref`/`getAllTopicSlugs`
(`chainSlugs`) and the root-ancestor walk of the search page's grouping
(`rootIdWalk`) are independent of the fuel once it reaches
`cats.length + 1`, and the walk visits exactly the node and its ancestors:
the collected segment list has length `countAncestors + 1`, i.e. the walk
takes as many steps as the node has ancestors. -/
theorem c5_parent_walks_terminate (cats : List Category) (c : Category)
    (hA : Acyclic cats) (hc : c ∈ cats) (fuel₁ fuel₂ : Nat) (s : String)
    (h₁ : cats.length + 1 ≤ fuel₁) (h₂ : cats.length + 1 ≤ fuel₂) :
    chainSlugs cats fuel₁ c = chainSlugs cats fuel₂ c ∧
      countAncestors cats fuel₁ c = countAncestors cats fuel₂ c ∧
      (chainSlugs cats fuel₁ c).length = countAncestors cats fuel₁ c + 1 ∧
      rootIdWalk cats fuel₁ s (some c) = rootIdWalk cats fuel₂ s (some c) := by
  have hterm := hA c hc
  refine ⟨?_, ?_, ?_, ?_⟩
  · rw [chainSlugs_stable _ c fuel₁ hterm h₁, chainSlugs_stable _ c fuel₂ hterm h₂]
  · rw [countAncestors_stable _ c fuel₁ hterm h₁,
      countAncestors_stable _ c fuel₂ hterm h₂]
  · exact chainSlugs_length _ c fuel₁ hterm h₁
  · rw [rootIdWalk_stable _ c fuel₁ s hterm h₁, rootIdWalk_stable _ c fuel₂ s hterm h₂]

/-- The two-level category set of the C5 witness. -/
def c5Cats : List Category :=
  [⟨"r", "Root", "foundations", "", none, 0, [], none⟩,
    ⟨"k", "Kid", "stt", "", some "r", 0, [], none⟩]

/-- Witness for C5: the walk from the depth-1 child is already stable at
fuel 3 = `cats.length + 1` and visits 2 nodes (1 ancestor). -/
theorem c5_parent_walks_terminate_witness :
    (Acyclic c5Cats ∧ (⟨"k", "Kid", "stt", "", some "r", 0, [], none⟩ : Category) ∈ c5Cats ∧
        c5Cats.length + 1 ≤ 3 ∧ c5Cats.length + 1 ≤ 7) ∧
      (chainSlugs c5Cats 3 ⟨"k", "Kid", "stt", "", some "r", 0, [], none⟩ =
          chainSlugs c5Cats 7 ⟨"k", "Kid", "stt", "", some "r", 0, [], none⟩ ∧
        countAncestors c5Cats 3 ⟨"k", "Kid", "stt", "", some "r", 0, [], none⟩ =
          countAncestors c5Cats 7 ⟨"k", "Kid", "stt", "", some "r", 0, [], none⟩ ∧
        (chainSlugs c5Cats 3 ⟨"k", "Kid", "stt", "", some "r", 0, [], none⟩).length =
          countAncestors c5Cats 3 ⟨"k", "Kid", "stt", "", some "r", 0, [], none⟩ + 1 ∧
        rootIdWalk c5Cats 3 "k" (some ⟨"k", "Kid", "stt", "", some "r", 0, [], none⟩) =
          rootIdWalk c5Cats 7 "k" (some ⟨"k", "Kid", "stt", "", some "r", 0, [], none⟩)) :=
  ⟨⟨by decide, by decide, by decide, by decide⟩,
    c5_parent_walks_terminate c5Cats ⟨"k", "Kid", "stt", "", some "r", 0, [], none⟩
      (by decide) (by decide) 3 7 "k" (by decide) (by decide)⟩

/-! ### Claim C6 -/

theorem orderLE_total : ∀ a b : Category, orderLE a b = true ∨ orderLE b a = true := by
  intro a b
  unfold orderLE
  rcases Int.le_total a.order b.order with h | h
  · left; simpa using h
  · right; simpa using h

theorem orderLE_trans : ∀ a b c : Category,
    orderLE a b = true → orderLE b c = true → orderLE a c = true := by
  intro a b c hab hbc
  unfold orderLE at *
  simp only [decide_eq_true_eq] at *
  exact le_trans hab hbc

/-- The concrete category pair of C6's "in particular" example. -/
def c6Cats : List Category :=
  [⟨"a", "A", "a", "", none, 2, [], none⟩, ⟨"b", "B", "b", "", none, 1, [], none⟩]

/-- **C6**: at every level of the navigation tree, `buildTree` lists the
children of `pid` as the stable `order`-sort of the sibling group: a
permutation of the sibling group, pairwise ascending in `order`, with the
elements of each equal-`order` class kept in original input order; and on
the concrete pair `{id:"a",order:2}, {id:"b",order:1}` the tree lists `b`
before `a`. -/
theorem c6_navigation_children_sorted (cats : List Category) (pid : Option String)
    (fuel : Nat) (base : String) (o : Int) :
    List.Perm (stableSort orderLE (childrenMap cats pid)) (childrenMap cats pid) ∧
      List.Pairwise (fun a b => a.order ≤ b.order)
        (stableSort orderLE (childrenMap cats pid)) ∧
      (stableSort orderLE (childrenMap cats pid)).filter (fun c => decide (c.order = o)) =
        (childrenMap cats pid).filter (fun c => decide (c.order = o)) ∧
      buildTree cats (fuel + 1) pid base =
        (stableSort orderLE (childrenMap cats pid)).map (fun c =>
          NavItem.mk c.title (base ++ "/" ++ c.slug)
            (buildTree cats fuel (some c.id) (base ++ "/" ++ c.slug))) ∧
      getNavigationTree c6Cats =
        [NavItem.mk "B" "/topics/b" [], NavItem.mk "A" "/topics/a" []] := by
  refine ⟨stableSort_perm orderLE _, ?_, ?_, rfl, rfl⟩
  · exact (pairwise_stableSort orderLE orderLE_total orderLE_trans _).imp
      (fun h => by simpa [orderLE] using h)
  · refine stableSort_filter orderLE orderLE_total orderLE_trans _ ?_ _
    intro a b ha hb
    simp only [decide_eq_true_eq] at ha hb
    simp [orderLE, ha, hb]

/-! ### Claim C7 -/

/-- Every `(category, href)` pair enumerated by the `buildTree` recursion
from a position whose base path is consistent with `buildHref` carries the
bottom-up href, provided the parent graph is acyclic and ids are unique
and non-empty. -/
theorem treePairs_href {cats : List Category} (hA : Acyclic cats)
    (hU : UniqueIds cats) (hN : NonemptyIds cats) :
    ∀ fuel : Nat, ∀ pid : Option String, ∀ base : String,
      ((pid = none ∧ base = "/topics") ∨
        (∃ p ∈ cats, pid = some p.id ∧ base = buildHref cats p)) →
      ∀ pr ∈ treePairs cats fuel pid base, pr.2 = buildHref cats pr.1 := by
  intro fuel
  induction fuel with
  | zero => intro pid base _ pr hpr; simp [treePairs] at hpr
  | succ f ih =>
    intro pid base hpre pr hpr
    simp only [treePairs, List.mem_flatMap] at hpr
    obtain ⟨c, hc, hpr⟩ := hpr
    obtain ⟨hcc, hcp⟩ :=
      mem_childrenMap.mp ((stableSort_perm orderLE _).mem_iff.mp hc)
    have hhref : base ++ "/" ++ c.slug = buildHref cats c := by
      rcases hpre with ⟨rfl, rfl⟩ | ⟨p, hpm, rfl, rfl⟩
      · have hpar : parentOf cats c = none := by simp [parentOf, hcp]
        rw [buildHref_root hpar]
        have h0 : "/topics" ++ "/" = "/topics/" := rfl
        rw [← h0, String.append_assoc]
      · have hpar : parentOf cats c = some p := by
          simp [parentOf, hcp, hN p hpm, mapGet_unique hU hpm]
        rw [buildHref_step hpar (hA c hcc)]
    rcases List.mem_cons.mp hpr with rfl | hprt
    · exact hhref
    · exact ih (some c.id) (base ++ "/" ++ c.slug)
        (Or.inr ⟨c, hcc, rfl, hhref⟩) pr hprt

/-- **C7 (amended)**: for every category set with acyclic parent graph and
unique non-empty ids (forced by `c7_counterexample`), the href computed
top-down by `getNavigationTree` — the running base path extended with the
node's slug at each level, as recorded by `treePairs` — equals the
bottom-up `buildHref` of the same category, for every node reachable in
the tree. -/
theorem c7_topdown_href_matches_buildHref (cats : List Category)
    (hA : Acyclic cats) (hU : UniqueIds cats) (hN : NonemptyIds cats) :
    ∀ fuel : Nat, ∀ pr ∈ treePairs cats fuel none "/topics",
      pr.2 = buildHref cats pr.1 :=
  fun fuel => treePairs_href hA hU hN fuel none "/topics" (Or.inl ⟨rfl, rfl⟩)

/-- The two-level category set of the C7 witness. -/
def c7wCats : List Category :=
  [⟨"r", "Root", "a", "", none, 0, [], none⟩,
    ⟨"k", "Kid", "b", "", some "r", 0, [], none⟩]

/-- Witness for C7 on a concrete two-level taxonomy. -/
theorem c7_topdown_href_matches_buildHref_witness :
    (Acyclic c7wCats ∧ UniqueIds c7wCats ∧ NonemptyIds c7wCats) ∧
      ∀ fuel : Nat, ∀ pr ∈ treePairs c7wCats fuel none "/topics",
        pr.2 = buildHref c7wCats pr.1 :=
  ⟨⟨by decide, by decide, by decide⟩,
    c7_topdown_href_matches_buildHref c7wCats (by decide) (by decide) (by decide)⟩

/-- The child of the C7 counterexample. -/
def c7xChild : Category := ⟨"c", "C", "child", "", some "x", 0, [], none⟩

/-- The category set of the C7 counterexample: two roots share id `"x"`. -/
def c7xCats : List Category :=
  [⟨"x", "A", "a", "", none, 0, [], none⟩,
    ⟨"x", "B", "b", "", none, 1, [], none⟩, c7xChild]

/-- Counterexample to C7 as stated (no invariants assumed): with duplicate
ids the tree places the child under the first root (`/topics/a/child`)
while `buildHref` walks up through the category map, where the second root
wins (`/topics/b/child`). -/
theorem c7_counterexample :
    (c7xChild, "/topics/a/child") ∈ treePairs c7xCats 3 none "/topics" ∧
      "/topics/a/child" ≠ buildHref c7xCats c7xChild := by
  refine ⟨by decide, by decide⟩

/-! ### Claim C8 -/

/-- `getPrevNextTopics` with its `let`-bindings expanded. -/
theorem getPrevNextTopics_eq (cats : List Category) (path : List String) :
    getPrevNextTopics cats path =
      match (getAllTopicSlugs cats).findIdx?
          (fun s => joinSep "/" s == joinSep "/" path) with
      | none => (none, none)
      | some i =>
        ((if 0 < i then (getAllTopicSlugs cats)[i - 1]? else none).bind
            (getTopicInfo cats),
          (if i + 1 < (getAllTopicSlugs cats).length then
              (getAllTopicSlugs cats)[i + 1]? else none).bind
            (getTopicInfo cats)) := rfl

/-- **C8 (amended)**: `getPrevNextTopics` locates the given slug path in
`getAllTopicSlugs()` by exact joined-string equality (first matching
index `i`).  A path not found yields `{prev: null, next: null}`; for the
first slug path in `getAllTopicSlugs()` the result has `prev = null`;
when `i = 0`, `prev = null`; when `i` is the last index, `next = null`;
and (forced by `c8_counterexample`) the in-bounds neighbours are not the
raw elements but `getTopicInfo` of them: the `{title, href}` entry derived
from the element at `i - 1` (resp. `i + 1`) when that element's path
resolves via `getTopicMetadata`, and `null` when it does not. -/
theorem c8_prev_next_neighbours (cats : List Category) (path : List String) :
    ((∀ s ∈ getAllTopicSlugs cats, joinSep "/" s ≠ joinSep "/" path) →
        getPrevNextTopics cats path = (none, none)) ∧
      (∀ s₀ rest, getAllTopicSlugs cats = s₀ :: rest →
        (getPrevNextTopics cats s₀).1 = none) ∧
      (∀ i, (getAllTopicSlugs cats).findIdx?
          (fun s => joinSep "/" s == joinSep "/" path) = some i →
        ((i = 0 → (getPrevNextTopics cats path).1 = none) ∧
          (i + 1 = (getAllTopicSlugs cats).length →
            (getPrevNextTopics cats path).2 = none) ∧
          (∀ j s, i = j + 1 → (getAllTopicSlugs cats)[j]? = some s →
            (getPrevNextTopics cats path).1 = getTopicInfo cats s) ∧
          (∀ s, (getAllTopicSlugs cats)[i + 1]? = some s →
            (getPrevNextTopics cats path).2 = getTopicInfo cats s))) ∧
      (∀ s, (getTopicMetadata cats s = none → getTopicInfo cats s = none) ∧
        (∀ m, getTopicMetadata cats s = some m →
          getTopicInfo cats s = some ⟨m.title, "/topics/" ++ joinSep "/" s⟩)) := by
  refine ⟨?_, ?_, ?_, ?_⟩
  · intro hno
    have hfind : (getAllTopicSlugs cats).findIdx?
        (fun s => joinSep "/" s == joinSep "/" path) = none := by
      rw [List.findIdx?_eq_none_iff]
      intro s hs
      simpa using hno s hs
    rw [getPrevNextTopics_eq, hfind]
  · intro s₀ rest h
    have hfind : (getAllTopicSlugs cats).findIdx?
        (fun s => joinSep "/" s == joinSep "/" s₀) = some 0 := by
      rw [h, List.findIdx?_cons]
      simp
    rw [getPrevNextTopics_eq, hfind]
    simp
  · intro i hfind
    refine ⟨?_, ?_, ?_, ?_⟩
    · intro hi
      subst hi
      rw [getPrevNextTopics_eq, hfind]
      simp
    · intro hlast
      rw [getPrevNextTopics_eq, hfind]
      simp [← hlast]
    · intro j s hij hj
      subst hij
      rw [getPrevNextTopics_eq, hfind]
      simp [hj]
    · intro s hs
      have hlt : i + 1 < (getAllTopicSlugs cats).length :=
        (List.getElem?_eq_some_iff.mp hs).1
      rw [getPrevNextTopics_eq, hfind]
      simp [hlt, hs]
  · intro s
    constructor
    · intro h; unfold getTopicInfo; rw [h]
    · intro m h; unfold getTopicInfo; rw [h]

/-- The category set of the C8 witness: two roots, slugs `a` and `b`. -/
def c8wCats : List Category :=
  [⟨"r1", "R1", "a", "", none, 0, [], none⟩,
    ⟨"r2", "R2", "b", "", none, 1, [], none⟩]

/-- Witness for C8: on the first slug path of `getAllTopicSlugs`, `prev`
is `null`. -/
theorem c8_prev_next_neighbours_witness :
    getAllTopicSlugs c8wCats = [["a"], ["b"]] ∧
      (getPrevNextTopics c8wCats ["a"]).1 = none :=
  ⟨by decide,
    (c8_prev_next_neighbours c8wCats ["a"]).2.1 ["a"] [["b"]] (by decide)⟩

/-- The category set of the C8 counterexample: the first category is an
orphan whose slug path `["x"]` does not resolve top-down. -/
def c8xCats : List Category :=
  [⟨"o", "O", "x", "", some "zz", 0, [], none⟩,
    ⟨"r", "R", "a", "", none, 0, [], none⟩]

/-- Counterexample to C8 as stated: the path `["a"]` is found at index 1
and an element exists at index 0, yet `prev` is `null` (the element at
index 0 is the orphan's path, which `getTopicMetadata` cannot resolve), so
`prev` is not "the element at index-1 when index > 0". -/
theorem c8_counterexample :
    (getAllTopicSlugs c8xCats).findIdx?
        (fun s => joinSep "/" s == joinSep "/" ["a"]) = some 1 ∧
      (getAllTopicSlugs c8xCats)[0]? = some ["x"] ∧
      (getPrevNextTopics c8xCats ["a"]).1 = none := by
  refine ⟨by decide, by decide, by decide⟩

/-! ### Claim C1 -/

theorem resultLE_total : ∀ a b : SearchResult,
    resultLE a b = true ∨ resultLE b a = true := by
  intro a b
  unfold resultLE
  cases ha : (a.matchType == MatchType.title) <;>
    cases hb : (b.matchType == MatchType.title) <;>
    simp [Int.le_total a.item.order b.item.order]

theorem resultLE_trans : ∀ a b c : SearchResult,
    resultLE a b = true → resultLE b c = true → resultLE a c = true := by
  intro a b c hab hbc
  unfold resultLE at *
  cases ha : (a.matchType == MatchType.title) <;>
    cases hb : (b.matchType == MatchType.title) <;>
    cases hc : (c.matchType == MatchType.title) <;>
    simp_all <;> omega

theorem matchOf_isSome (q : String) (it : Category) :
    (matchOf q it).isSome = catMatches q it := by
  unfold matchOf catMatches
  cases h1 : containsCI it.title q <;>
    cases h2 : containsCI it.description q <;>
    cases h3 : it.tags.any (fun t => containsCI t q) <;>
    simp [h1, h2, h3]

theorem annotate_map_item (q : String) :
    ∀ items : List Category,
      (annotate q items).map (fun r => r.item) = items.filter (catMatches q) := by
  intro items
  induction items with
  | nil => rfl
  | cons it its ih =>
    have hsome := matchOf_isSome q it
    simp only [annotate, List.filterMap_cons] at *
    cases hm : matchOf q it with
    | none =>
      rw [hm] at hsome
      simp [List.filter_cons, ← hsome, ih]
    | some m =>
      rw [hm] at hsome
      simp [List.filter_cons, ← hsome, ih]

theorem matchOf_spec (q : String) (it : Category) (m : MatchType)
    (h : matchOf q it = some m) :
    (m = MatchType.title ↔ containsCI it.title q = true) ∧
      (m = MatchType.description ↔
        (containsCI it.title q = false ∧ containsCI it.description q = true)) ∧
      (m = MatchType.tags ↔
        (containsCI it.title q = false ∧ containsCI it.description q = false ∧
          it.tags.any (fun t => containsCI t q) = true)) := by
  unfold matchOf at h
  cases h1 : containsCI it.title q <;> rw [h1] at h
  · cases h2 : containsCI it.description q <;> rw [h2] at h
    · cases h3 : it.tags.any (fun t => containsCI t q) <;> rw [h3] at h
      · simp at h
      · obtain rfl : MatchType.tags = m := by injection h
        simp
    · obtain rfl : MatchType.description = m := by injection h
      simp
  · obtain rfl : MatchType.title = m := by injection h
    simp

theorem mem_annotate {q : String} {items : List Category} {r : SearchResult}
    (h : r ∈ annotate q items) : matchOf q r.item = some r.matchType := by
  unfold annotate at h
  rw [List.mem_filterMap] at h
  obtain ⟨it, _, hit⟩ := h
  cases hm : matchOf q it with
  | none => rw [hm] at hit; simp at hit
  | some m =>
    rw [hm] at hit
    have hsome : some (⟨it, m⟩ : SearchResult) = some r := hit
    obtain rfl : (⟨it, m⟩ : SearchResult) = r := by injection hsome
    exact hm

theorem resultLE_spec (a b : SearchResult) (h : resultLE a b = true) :
    (b.matchType = MatchType.title → a.matchType = MatchType.title) ∧
      ((a.matchType = MatchType.title ↔ b.matchType = MatchType.title) →
        a.item.order ≤ b.item.order) := by
  unfold resultLE at h
  cases ha : (a.matchType == MatchType.title) <;>
    cases hb : (b.matchType == MatchType.title) <;>
    rw [ha, hb] at h <;>
    simp_all [beq_iff_eq]

/-- **C1**: for every query whose trim is non-empty and every item list,
the search result list (before the final `slice`, shared by both search
components) consists exactly of the items whose title, description or some
tag contains the query case-insensitively (as a permutation recording one
result per matching item); each result carries the single `matchType` of
the first matching field in the order title, description, tags; the list
is ordered with every title match before every non-title match and
remaining ties by ascending `order`; results tied on both keys keep their
item-list order (stability, stated per key class); and the header
quick-search and full-page search truncate this sorted list to its first
8 and 20 elements respectively. -/
theorem c1_search_ranked_results (q : String) (items : List Category)
    (h : jsTrim q ≠ "") :
    List.Perm ((searchAll q items).map (fun r => r.item))
        (items.filter (catMatches q)) ∧
      (∀ r ∈ searchAll q items,
        (r.matchType = MatchType.title ↔ containsCI r.item.title q = true) ∧
          (r.matchType = MatchType.description ↔
            (containsCI r.item.title q = false ∧
              containsCI r.item.description q = true)) ∧
          (r.matchType = MatchType.tags ↔
            (containsCI r.item.title q = false ∧
              containsCI r.item.description q = false ∧
              r.item.tags.any (fun t => containsCI t q) = true))) ∧
      List.Pairwise (fun a b =>
        (b.matchType = MatchType.title → a.matchType = MatchType.title) ∧
          ((a.matchType = MatchType.title ↔ b.matchType = MatchType.title) →
            a.item.order ≤ b.item.order)) (searchAll q items) ∧
      (∀ (tb : Bool) (o : Int),
        (searchAll q items).filter
            (fun r => ((r.matchType == MatchType.title) == tb) &&
              decide (r.item.order = o)) =
          (annotate q items).filter
            (fun r => ((r.matchType == MatchType.title) == tb) &&
              decide (r.item.order = o))) ∧
      searchHeader q items = (searchAll q items).take 8 ∧
      searchPage q items = (searchAll q items).take 20 := by
  have hall : searchAll q items = stableSort resultLE (annotate q items) := by
    unfold searchAll
    rw [if_neg h]
  refine ⟨?_, ?_, ?_, ?_, rfl, rfl⟩
  · rw [hall, ← annotate_map_item q items]
    exact (stableSort_perm resultLE (annotate q items)).map (fun r => r.item)
  · intro r hr
    rw [hall] at hr
    have hr' : r ∈ annotate q items :=
      ((stableSort_perm resultLE (annotate q items)).mem_iff).mp hr
    exact matchOf_spec q r.item r.matchType (mem_annotate hr')
  · rw [hall]
    exact (pairwise_stableSort resultLE resultLE_total resultLE_trans
      (annotate q items)).imp (fun hab => resultLE_spec _ _ hab)
  · intro tb o
    rw [hall]
    refine stableSort_filter resultLE resultLE_total resultLE_trans _ ?_ _
    intro a b hpa hpb
    rw [Bool.and_eq_true, beq_iff_eq, decide_eq_true_eq] at hpa hpb
    unfold resultLE
    rw [hpa.1, hpb.1, hpa.2, hpb.2]
    cases tb <;> simp

/-- The item list of the C1 witness: a title match, a description match
and a tag match for the query `"speech"`. -/
def c1wItems : List Category :=
  [⟨"1", "Speech Recognition", "sr", "about", none, 0, [], none⟩,
    ⟨"2", "X", "x", "uses speech recognition", none, 1, [], none⟩,
    ⟨"3", "Y", "y", "other", none, 2, ["speech-recognition"], none⟩]

/-- Witness for C1 at the query `"speech"` over `c1wItems`. -/
theorem c1_search_ranked_results_witness :
    jsTrim "speech" ≠ "" ∧
      (List.Perm ((searchAll "speech" c1wItems).map (fun r => r.item))
          (c1wItems.filter (catMatches "speech")) ∧
        (∀ r ∈ searchAll "speech" c1wItems,
          (r.matchType = MatchType.title ↔
              containsCI r.item.title "speech" = true) ∧
            (r.matchType = MatchType.description ↔
              (containsCI r.item.title "speech" = false ∧
                containsCI r.item.description "speech" = true)) ∧
            (r.matchType = MatchType.tags ↔
              (containsCI r.item.title "speech" = false ∧
                containsCI r.item.description "speech" = false ∧
                r.item.tags.any (fun t => containsCI t "speech") = true))) ∧
        List.Pairwise (fun a b =>
          (b.matchType = MatchType.title → a.matchType = MatchType.title) ∧
            ((a.matchType = MatchType.title ↔ b.matchType = MatchType.title) →
              a.item.order ≤ b.item.order)) (searchAll "speech" c1wItems) ∧
        (∀ (tb : Bool) (o : Int),
          (searchAll "speech" c1wItems).filter
              (fun r => ((r.matchType == MatchType.title) == tb) &&
                decide (r.item.order = o)) =
            (annotate "speech" c1wItems).filter
              (fun r => ((r.matchType == MatchType.title) == tb) &&
                decide (r.item.order = o))) ∧
        searchHeader "speech" c1wItems = (searchAll "speech" c1wItems).take 8 ∧
        searchPage "speech" c1wItems = (searchAll "speech" c1wItems).take 20) :=
  ⟨by decide, c1_search_ranked_results "speech" c1wItems (by decide)⟩

/-! ### Claim C10 -/

/-- A successfully matched heading has between 2 and 4 hash characters. -/
theorem matchHeadingAt_level {cs : List Char} {k : Nat} {text rest : List Char}
    (h : matchHeadingAt cs = some (k, text, rest)) : 2 ≤ k ∧ k ≤ 4 := by
  unfold matchHeadingAt at h
  split at h
  case isFalse => cases h
  case isTrue hk =>
    split at h
    case h_2 => cases h
    case h_1 j hj =>
      split at h
      case isFalse => cases h
      case isTrue hj1 =>
        have h' : (headingLevel cs, headingText (headingBody cs) j,
            ((headingBody cs).drop j).drop
              (headingText (headingBody cs) j).length) = (k, text, rest) := by
          injection h
        have hk1 : headingLevel cs = k := congrArg Prod.fst h'
        rw [← hk1]
        exact hk

/-- Every item produced by the scan is `mkTocItem` of a matched heading of
level 2 to 4. -/
theorem tocScan_items :
    ∀ fuel : Nat, ∀ cs : List Char, ∀ atStart : Bool,
      ∀ it ∈ tocScan fuel cs atStart,
        ∃ k raw, it = mkTocItem k raw ∧ 2 ≤ k ∧ k ≤ 4 := by
  intro fuel
  induction fuel with
  | zero => intro cs atStart it hit; simp [tocScan] at hit
  | succ f ih =>
    intro cs atStart it hit
    cases cs with
    | nil => simp [tocScan] at hit
    | cons c cs' =>
      cases atStart with
      | false =>
        simp only [tocScan, Bool.false_eq_true, if_false] at hit
        exact ih cs' (isLineTermJS c) it hit
      | true =>
        simp only [tocScan, if_true] at hit
        cases hm : matchHeadingAt (c :: cs') with
        | none =>
          rw [hm] at hit
          exact ih cs' (isLineTermJS c) it hit
        | some res =>
          obtain ⟨k, text, rest⟩ := res
          rw [hm] at hit
          rcases List.mem_cons.mp hit with rfl | hit
          · obtain ⟨h2, h4⟩ := matchHeadingAt_level hm
            exact ⟨k, text, rfl, h2, h4⟩
          · exact ih rest false it hit

/-- Well-formedness of a heading id: only lowercase letters, digits and
hyphens, with no hyphen at either end. -/
def IdGood (s : String) : Prop :=
  (∀ c ∈ s.toList, isIdChar c = true ∨ c = '-') ∧
    s.toList.head? ≠ some '-' ∧ s.toList.getLast? ≠ some '-'

theorem isIdChar_ne_hyphen {c : Char} (h : isIdChar c = true) : c ≠ '-' := by
  intro hc
  rw [hc] at h
  simp [isIdChar] at h

theorem collapse_skip_chars : ∀ l : List Char,
    (∀ c ∈ collapseRuns l, isIdChar c = true ∨ c = '-') ∧
      (∀ c ∈ skipRun l, isIdChar c = true ∨ c = '-') := by
  intro l
  induction l with
  | nil =>
    constructor <;> intro c hc <;> simp [collapseRuns, skipRun] at hc
  | cons a as ih =>
    constructor
    · intro c hc
      simp only [collapseRuns] at hc
      by_cases ha : isIdChar a = true
      · rw [if_pos ha] at hc
        rcases List.mem_cons.mp hc with rfl | hc
        · exact Or.inl ha
        · exact ih.1 c hc
      · rw [if_neg ha] at hc
        rcases List.mem_cons.mp hc with rfl | hc
        · exact Or.inr rfl
        · exact ih.2 c hc
    · intro c hc
      simp only [skipRun] at hc
      by_cases ha : isIdChar a = true
      · rw [if_pos ha] at hc
        rcases List.mem_cons.mp hc with rfl | hc
        · exact Or.inl ha
        · exact ih.1 c hc
      · rw [if_neg ha] at hc
        exact ih.2 c hc

theorem skipRun_head : ∀ l : List Char, ∀ c : Char,
    (skipRun l).head? = some c → isIdChar c = true := by
  intro l
  induction l with
  | nil => intro c h; simp [skipRun] at h
  | cons a as ih =>
    intro c h
    simp only [skipRun] at h
    by_cases ha : isIdChar a = true
    · rw [if_pos ha] at h
      obtain rfl : a = c := by simpa using h
      exact ha
    · rw [if_neg ha] at h
      exact ih c h

/-- In the collapsed output, a hyphen is never followed by a hyphen. -/
theorem collapse_skip_chain : ∀ l : List Char,
    List.Chain' (fun a b => a = '-' → b ≠ '-') (collapseRuns l) ∧
      List.Chain' (fun a b => a = '-' → b ≠ '-') (skipRun l) := by
  intro l
  induction l with
  | nil => constructor <;> simp [collapseRuns, skipRun]
  | cons a as ih =>
    have hcons : ∀ x : Char, (isIdChar x = true ∨
        (∀ y, (skipRun as).head? = some y → y ≠ '-')) →
        True := fun _ _ => trivial
    constructor
    · simp only [collapseRuns]
      by_cases ha : isIdChar a = true
      · rw [if_pos ha]
        rw [List.chain'_cons']
        refine ⟨fun y _ hya => absurd hya (isIdChar_ne_hyphen ha), ih.1⟩
      · rw [if_neg ha]
        rw [List.chain'_cons']
        refine ⟨fun y hy _ => ?_, ih.2⟩
        exact isIdChar_ne_hyphen (skipRun_head as y hy)
    · simp only [skipRun]
      by_cases ha : isIdChar a = true
      · rw [if_pos ha]
        rw [List.chain'_cons']
        refine ⟨fun y _ hya => absurd hya (isIdChar_ne_hyphen ha), ih.1⟩
      · rw [if_neg ha]
        exact ih.2

theorem head?_dropLast {α : Type} :
    ∀ (l : List α) (c : α), l.dropLast.head? = some c → l.head? = some c := by
  intro l c h
  cases l with
  | nil => simp at h
  | cons a t =>
    cases t with
    | nil => simp [List.dropLast] at h
    | cons b t' =>
      have : (a :: b :: t').dropLast = a :: (b :: t').dropLast := rfl
      rw [this] at h
      simpa using (by simpa using h : a = c)

/-- In a `Chain'`-related list, the last element and the one before it are
related. -/
theorem chain'_last_pair {α : Type} {R : α → α → Prop} :
    ∀ l : List α, List.Chain' R l → ∀ a b : α,
      l.dropLast.getLast? = some a → l.getLast? = some b → R a b := by
  intro l
  induction l with
  | nil => intro _ a b h1 _; simp at h1
  | cons x t ih =>
    intro hch a b h1 h2
    cases t with
    | nil => simp at h1
    | cons y t' =>
      obtain ⟨hxy, hch'⟩ := List.chain'_cons.mp hch
      cases t' with
      | nil =>
        obtain rfl : x = a := by simpa [List.dropLast] using h1
        obtain rfl : y = b := by simpa using h2
        exact hxy
      | cons z t'' =>
        have hd : (x :: y :: z :: t'').dropLast = x :: (y :: z :: t'').dropLast := rfl
        rw [hd] at h1
        have hne : (y :: z :: t'').dropLast = y :: (z :: t'').dropLast := rfl
        have h1' : (y :: z :: t'').dropLast.getLast? = some a := by
          rw [hne] at h1 ⊢
          rw [List.getLast?_cons_cons] at h1
          exact h1
        have h2' : (y :: z :: t'').getLast? = some b := by
          rw [List.getLast?_cons_cons] at h2
          exact h2
        exact ih hch' a b h1' h2'

/-- The generated ids are well-formed: only lowercase alphanumerics and
interior hyphens. -/
theorem IdGood_headingId (t : String) : IdGood (headingId t) := by
  have hchars : ∀ c ∈ collapseRuns (t.toList.map Char.toLower),
      isIdChar c = true ∨ c = '-' :=
    (collapse_skip_chars (t.toList.map Char.toLower)).1
  have hchain : List.Chain' (fun a b => a = '-' → b ≠ '-')
      (collapseRuns (t.toList.map Char.toLower)) :=
    (collapse_skip_chain (t.toList.map Char.toLower)).1
  generalize hl : collapseRuns (t.toList.map Char.toLower) = l at hchars hchain
  have hli : (headingId t).toList = stripEdgeHyphens l := by
    unfold headingId
    rw [hl]
    rfl
  -- the intermediate list after removing one leading hyphen
  have hmem1 : ∀ c ∈ dropLeadHyphen l, c ∈ l := by
    cases l with
    | nil => simp [dropLeadHyphen]
    | cons x t' =>
      by_cases hx : x = '-'
      · simp only [dropLeadHyphen, if_pos hx]
        intro c hc
        exact List.mem_cons_of_mem x hc
      · simp only [dropLeadHyphen, if_neg hx]
        intro c hc
        exact hc
  have hchain1 : List.Chain' (fun a b => a = '-' → b ≠ '-') (dropLeadHyphen l) := by
    cases l with
    | nil => simp [dropLeadHyphen]
    | cons x t' =>
      by_cases hx : x = '-'
      · simp only [dropLeadHyphen, if_pos hx]
        exact hchain.tail
      · simp only [dropLeadHyphen, if_neg hx]
        exact hchain
  have hhead1 : (dropLeadHyphen l).head? ≠ some '-' := by
    cases l with
    | nil => simp [dropLeadHyphen]
    | cons x t' =>
      by_cases hx : x = '-'
      · simp only [dropLeadHyphen, if_pos hx]
        intro hy
        obtain ⟨y, hy1, hy2⟩ : ∃ y, t'.head? = some y ∧ y = '-' := by
          cases ht : t'.head? with
          | none => rw [ht] at hy; cases hy
          | some y => rw [ht] at hy; exact ⟨y, rfl, by injection hy⟩
        subst hx
        have := (List.chain'_cons'.mp hchain).1 y (by rw [hy1]; rfl)
        exact this rfl hy2
      · simp only [dropLeadHyphen, if_neg hx]
        intro hy
        exact hx (by injection hy)
  refine ⟨?_, ?_, ?_⟩
  · -- character set
    intro c hc
    rw [hli] at hc
    unfold stripEdgeHyphens at hc
    by_cases hlast : (dropLeadHyphen l).getLast? = some '-'
    · rw [if_pos hlast] at hc
      exact hchars c (hmem1 c (((dropLeadHyphen l).dropLast_sublist).mem hc))
    · rw [if_neg hlast] at hc
      exact hchars c (hmem1 c hc)
  · -- no leading hyphen
    rw [hli]
    unfold stripEdgeHyphens
    by_cases hlast : (dropLeadHyphen l).getLast? = some '-'
    · rw [if_pos hlast]
      intro hh
      cases hh' : (dropLeadHyphen l).dropLast.head? with
      | none => rw [hh'] at hh; cases hh
      | some c =>
        rw [hh'] at hh
        obtain rfl : c = '-' := by injection hh
        exact hhead1 (head?_dropLast _ _ hh')
    · rw [if_neg hlast]
      exact hhead1
  · -- no trailing hyphen
    rw [hli]
    unfold stripEdgeHyphens
    by_cases hlast : (dropLeadHyphen l).getLast? = some '-'
    · rw [if_pos hlast]
      intro hh
      exact chain'_last_pair (dropLeadHyphen l) hchain1 '-' '-' hh hlast rfl rfl
    · rw [if_neg hlast]
      exact hlast

/-- The `(level, raw capture)` pairs of the successive heading matches
found by the exec loop: the same scan as `tocScan`, recording each match
instead of each constructed item. -/
def tocMatches : Nat → List Char → Bool → List (Nat × List Char)
  | 0, _, _ => []
  | _ + 1, [], _ => []
  | fuel + 1, c :: cs, atStart =>
    if atStart then
      match matchHeadingAt (c :: cs) with
      | some (k, text, rest) => (k, text) :: tocMatches fuel rest false
      | none => tocMatches fuel cs (isLineTermJS c)
    else tocMatches fuel cs (isLineTermJS c)

/-- The scan pushes exactly one item per heading match, in match order:
no match is dropped and no item is invented. -/
theorem tocScan_eq_map_matches :
    ∀ fuel : Nat, ∀ cs : List Char, ∀ atStart : Bool,
      tocScan fuel cs atStart =
        (tocMatches fuel cs atStart).map (fun p => mkTocItem p.1 p.2) := by
  intro fuel
  induction fuel with
  | zero => intro cs atStart; rfl
  | succ f ih =>
    intro cs atStart
    cases cs with
    | nil => rfl
    | cons c cs' =>
      cases atStart with
      | false =>
        simp only [tocScan, tocMatches, Bool.false_eq_true, if_false]
        exact ih cs' (isLineTermJS c)
      | true =>
        simp only [tocScan, tocMatches, if_true]
        cases hm : matchHeadingAt (c :: cs') with
        | none => exact ih cs' (isLineTermJS c)
        | some res =>
          obtain ⟨k, text, rest⟩ := res
          simp only [List.map_cons]
          rw [ih rest false]

/-- Every recorded heading match has level between 2 and 4. -/
theorem tocMatches_levels :
    ∀ fuel : Nat, ∀ cs : List Char, ∀ atStart : Bool,
      ∀ p ∈ tocMatches fuel cs atStart, 2 ≤ p.1 ∧ p.1 ≤ 4 := by
  intro fuel
  induction fuel with
  | zero => intro cs atStart p hp; simp [tocMatches] at hp
  | succ f ih =>
    intro cs atStart p hp
    cases cs with
    | nil => simp [tocMatches] at hp
    | cons c cs' =>
      cases atStart with
      | false =>
        simp only [tocMatches, Bool.false_eq_true, if_false] at hp
        exact ih cs' (isLineTermJS c) p hp
      | true =>
        simp only [tocMatches, if_true] at hp
        cases hm : matchHeadingAt (c :: cs') with
        | none =>
          rw [hm] at hp
          exact ih cs' (isLineTermJS c) p hp
        | some res =>
          obtain ⟨k, text, rest⟩ := res
          rw [hm] at hp
          rcases List.mem_cons.mp hp with rfl | hp
          · exact matchHeadingAt_level hm
          · exact ih rest false p hp

/-- **C10 (amended)**: `extractTableOfContents` returns exactly one item
per match of the heading pattern (the pattern is anchored at a line start
and its whitespace may span line breaks, as `c10_counterexample` forces,
rather than selecting whole heading lines), in match order: each item is
built from its match's raw `(.+)` capture by trimming and stripping
markdown link syntax to the link text, with the id derived from that text
by lowercasing, collapsing every maximal run of non-alphanumeric
characters to a single hyphen and removing edge hyphens.  Every match —
and hence every item — has level 2 to 4 (level-1 and level-5/6 hash runs
yield no match), every item's id is `headingId` of its text and consists
only of lowercase letters, digits and interior hyphens, and on the
concrete heading `"## [STT Overview](/topics/stt)"` the link is stripped
to its text. -/
theorem c10_toc_items (content : String) :
    extractTableOfContents content =
        (tocMatches (content.toList.length + 1) content.toList true).map
          (fun p =>
            ⟨headingId (stripMarkdownLinks (jsTrim (String.mk p.2))),
              stripMarkdownLinks (jsTrim (String.mk p.2)), p.1⟩) ∧
      (∀ p ∈ tocMatches (content.toList.length + 1) content.toList true,
        2 ≤ p.1 ∧ p.1 ≤ 4) ∧
      (∀ it ∈ extractTableOfContents content,
        (2 ≤ it.level ∧ it.level ≤ 4) ∧ it.id = headingId it.text ∧ IdGood it.id) ∧
      extractTableOfContents "## [STT Overview](/topics/stt)" =
        [⟨"stt-overview", "STT Overview", 2⟩] := by
  refine ⟨?_, tocMatches_levels _ _ _, ?_, by decide⟩
  · unfold extractTableOfContents
    rw [tocScan_eq_map_matches (content.toList.length + 1) content.toList true]
    rfl
  · intro it h
    obtain ⟨k, raw, rfl, h2, h4⟩ :=
      tocScan_items (content.toList.length + 1) content.toList true it h
    exact ⟨⟨h2, h4⟩, rfl, IdGood_headingId _⟩

/-- Witness for C10 on the heading `"## Hi"`: the membership hypothesis of
the per-item conjunct is discharged concretely. -/
theorem c10_toc_items_witness :
    (⟨"hi", "Hi", 2⟩ : TocItem) ∈ extractTableOfContents "## Hi" ∧
      ((2 ≤ (⟨"hi", "Hi", 2⟩ : TocItem).level ∧ (⟨"hi", "Hi", 2⟩ : TocItem).level ≤ 4) ∧
        (⟨"hi", "Hi", 2⟩ : TocItem).id = headingId (⟨"hi", "Hi", 2⟩ : TocItem).text ∧
        IdGood (⟨"hi", "Hi", 2⟩ : TocItem).id) :=
  ⟨by decide, (c10_toc_items "## Hi").2.2.1 ⟨"hi", "Hi", 2⟩ (by decide)⟩

/-- Counterexample to C10 as stated: the content `"##\nfoo"` has two lines,
neither of which is a heading line in the claim's sense (2-4 hashes
followed by a space), yet `extractTableOfContents` produces an item — the
regex's `\s+` matches the newline, joining the hash run and the text of
the following line into one heading match. -/
theorem c10_counterexample :
    extractTableOfContents "##\nfoo" = [⟨"foo", "foo", 2⟩] ∧
      "##\nfoo" = "##" ++ "\n" ++ "foo" ∧
      claimHeadingLine "##" = false ∧ claimHeadingLine "foo" = false := by
  refine ⟨by decide, by decide, by decide, by decide⟩

end VoiceAI
